import Mathlib

/-!
Verification of the structured-response extraction and document layout engine
of the Reddit persona generator (src/main.py).

Python strings are modelled as lists of characters; Python integers as Int;
fallible steps as Except / Option.  The deserializer models json.loads, the
external JSON library the source calls; the pixel-measuring function of the
body font (drawer.textbbox) is an abstract parameter of the word-wrap model.
-/

namespace RP

/-- A Python string, modelled as its list of characters. -/
abbrev Str := List Char

/-- Characters of a Lean string literal, used to write concrete inputs. -/
def toL (s : String) : Str := s.data

/-- Whitespace test used by str.strip of the source text. -/
def isWS (c : Char) : Bool := c == ' ' || c == '\t' || c == '\n' || c == '\r'

/-- Python str.strip: drop whitespace at the left end. -/
def stripL (s : Str) : Str := s.dropWhile isWS

/-- Python str.strip: drop whitespace at the right end. -/
def stripR (s : Str) : Str := (s.reverse.dropWhile isWS).reverse

/-- Python str.strip. -/
def strip (s : Str) : Str := stripR (stripL s)

/-- Python s.split(sep) for a one-character separator: keeps empty pieces. -/
def splitOn (sep : Char) : Str → List Str
  | [] => [[]]
  | c :: cs =>
      if c = sep then [] :: splitOn sep cs
      else
        match splitOn sep cs with
        | [] => [[c]]
        | w :: ws => (c :: w) :: ws

/-- Join pieces with a one-character separator, inverse of splitOn. -/
def joinWith (sep : Char) : List Str → Str
  | [] => []
  | [w] => w
  | w :: ws => w ++ sep :: joinWith sep ws

/-- Python s.find(c): index of the first occurrence, or -1. -/
def find (c : Char) : Str → Int
  | [] => -1
  | a :: s =>
      if a = c then 0
      else
        let r := find c s
        if r = -1 then -1 else r + 1

/-- Python s.rfind(c): index of the last occurrence, or -1. -/
def rfind (c : Char) : Str → Int
  | [] => -1
  | a :: s =>
      let r := rfind c s
      if r ≠ -1 then r + 1 else if a = c then 0 else -1

/-- Payload isolation of parse_persona_data_from_json (src/main.py lines
156-159): slice from the first left brace to the last right brace inclusive,
or the unchanged input if either is missing. -/
def isolate_payload (s : Str) : Str :=
  let start_brace := find '\x7b' s
  let end_brace := rfind '\x7d' s
  if start_brace ≠ -1 ∧ end_brace ≠ -1 then
    (s.take (end_brace + 1).toNat).drop start_brace.toNat
  else s

/-- The word-accumulation loop of draw_bullet_section (src/main.py lines
254-263): w measures the rendered pixel width of a candidate line with the
body font, limit is max_width - 20.  cur is current_line. -/
def wrapAux (w : Str → Nat) (limit : Int) : List Str → Str → List Str
  | [], cur => [cur]
  | wd :: rest, cur =>
      let test := strip (cur ++ ' ' :: wd)
      if (w test : Int) < limit then wrapAux w limit rest test
      else cur :: wrapAux w limit rest wd

/-- Word wrapping of one Observation item (src/main.py lines 252-264):
split on single spaces, greedily accumulate, always commit the last line. -/
def wrapLines (w : Str → Nat) (maxWidth : Int) (item : Str) : List Str :=
  wrapAux w (maxWidth - 20) (splitOn ' ' item) []

/-- The texts actually drawn for the wrapped lines (src/main.py lines
266-268): a bullet glyph before the first line, blank padding before the
continuation lines. -/
def bulletLines : List Str → List Str
  | [] => []
  | l :: ls => (toL "• " ++ l) :: ls.map (fun l2 => toL "  " ++ l2)

/-- A fixed-width style measure: ten pixels per character.  Used to
instantiate the abstract font measure on concrete inputs. -/
def monoW (s : Str) : Nat := 10 * s.length

/-- A generic parsed JSON value, the result type of the deserializer. -/
inductive JsonVal where
  | null : JsonVal
  | bool : Bool → JsonVal
  | num : Int → JsonVal
  | str : Str → JsonVal
  | arr : List JsonVal → JsonVal
  | obj : List (Str × JsonVal) → JsonVal

/-- A parsed JSON object: key-value pairs in source order. -/
abbrev Obj := List (Str × JsonVal)

/-- JSON insignificant whitespace. -/
def skipWS (s : Str) : Str :=
  s.dropWhile (fun c => c == ' ' || c == '\t' || c == '\n' || c == '\r')

/-- Read the body of a JSON string after its opening quote; returns the
decoded characters and the rest of the input after the closing quote. -/
def parseStrBody : Str → Option (Str × Str)
  | [] => none
  | c :: rest =>
      if c = '"' then some ([], rest)
      else if c = '\\' then
        match rest with
        | [] => none
        | e :: rest2 =>
            (parseStrBody rest2).map (fun p =>
              ((if e = 'n' then '\n' else if e = 't' then '\t' else e) :: p.1, p.2))
      else (parseStrBody rest).map (fun p => (c :: p.1, p.2))

/-- Accumulate a run of decimal digits as a Nat. -/
def digitsVal (ds : Str) : Nat := ds.foldl (fun n c => 10 * n + (c.toNat - 48)) 0

/-- Parse a JSON integer literal (fraction and exponent are not needed for
the payloads under study). -/
def parseNum (s : Str) : Option (JsonVal × Str) :=
  let (neg, s1) := match s with
    | '-' :: t => (true, t)
    | t => (false, t)
  let (ds, rest) := s1.span (fun c => c.isDigit)
  if ds = [] then none
  else some (.num (if neg then -(digitsVal ds : Int) else (digitsVal ds : Int)), rest)

/-- Match a literal keyword tail such as rue, alse, ull. -/
def litTail (lit : Str) (s : Str) : Option Str :=
  if s.take lit.length == lit then some (s.drop lit.length) else none

/-- Elements of a JSON array after the opening bracket; pv parses one value,
fuel bounds the number of elements, first tells whether a closing bracket may
come immediately. -/
def parseArrBody (pv : Str → Option (JsonVal × Str)) :
    Nat → Bool → Str → Option (List JsonVal × Str)
  | 0, _, _ => none
  | f + 1, first, s =>
      match skipWS s with
      | ']' :: r => if first then some ([], r) else none
      | s1 =>
          match pv s1 with
          | none => none
          | some (v, r) =>
              match skipWS r with
              | ',' :: r2 =>
                  match parseArrBody pv f false r2 with
                  | some (vs, rr) => some (v :: vs, rr)
                  | none => none
              | ']' :: r2 => some ([v], r2)
              | _ => none

/-- Members of a JSON object after the opening brace, analogous to
parseArrBody. -/
def parseObjBody (pv : Str → Option (JsonVal × Str)) :
    Nat → Bool → Str → Option (Obj × Str)
  | 0, _, _ => none
  | f + 1, first, s =>
      match skipWS s with
      | '\x7d' :: r => if first then some ([], r) else none
      | '"' :: r =>
          match parseStrBody r with
          | none => none
          | some (k, r1) =>
              match skipWS r1 with
              | ':' :: r2 =>
                  match pv r2 with
                  | none => none
                  | some (v, r3) =>
                      match skipWS r3 with
                      | ',' :: r4 =>
                          match parseObjBody pv f false r4 with
                          | some (kvs, rr) => some ((k, v) :: kvs, rr)
                          | none => none
                      | '\x7d' :: r4 => some ([(k, v)], r4)
                      | _ => none
              | _ => none
      | _ => none

/-- Parse one JSON value; fuel bounds the nesting depth. -/
def parseVal : Nat → Str → Option (JsonVal × Str)
  | 0, _ => none
  | f + 1, s =>
      match skipWS s with
      | [] => none
      | c :: rest =>
          if c = '\x7b' then
            match parseObjBody (parseVal f) (rest.length + 1) true rest with
            | some (kvs, r) => some (.obj kvs, r)
            | none => none
          else if c = '[' then
            match parseArrBody (parseVal f) (rest.length + 1) true rest with
            | some (vs, r) => some (.arr vs, r)
            | none => none
          else if c = '"' then
            (parseStrBody rest).map (fun p => (.str p.1, p.2))
          else if c = 't' then (litTail (toL "rue") rest).map (fun r => (.bool true, r))
          else if c = 'f' then (litTail (toL "alse") rest).map (fun r => (.bool false, r))
          else if c = 'n' then (litTail (toL "ull") rest).map (fun r => (.null, r))
          else parseNum (c :: rest)

/-- Model of json.loads, the external deserializer the source calls: parse
one JSON document and require that nothing but whitespace follows. -/
def loads (s : Str) : Option JsonVal :=
  match parseVal (s.length + 1) s with
  | some (v, r) => if skipWS r = [] then some v else none
  | none => none

/-- parse_persona_data_from_json (src/main.py lines 152-170): isolate the
payload, deserialize it; on failure the typed error carries the first 500
characters of the offending (isolated) text. -/
def parse_persona_data_from_json (s : Str) : Except Str JsonVal :=
  match loads (isolate_payload s) with
  | some v => .ok v
  | none => .error ((isolate_payload s).take 500)

/-- Python startswith for the fence check. -/
def startsWith (p s : Str) : Bool := s.take p.length == p

/-- Python endswith for the fence check. -/
def endsWith (p s : Str) : Bool := s.drop (s.length - p.length) == p

/-- The response clean-up of generate_persona_with_gemini (src/main.py lines
141-145): strip, drop a leading json code-fence marker, drop a trailing
fence. -/
def clean_model_output (raw : Str) : Str :=
  let t := strip raw
  let t1 := if startsWith (toL "```json") t then t.drop 7 else t
  if endsWith (toL "```") t1 then t1.take (t1.length - 3) else t1

/-- The dispatch of main (src/main.py lines 318-322): the image is generated
only when parsing returned a truthy record. -/
def truthy : JsonVal → Bool
  | .null => false
  | .bool b => b
  | .num n => n != 0
  | .str s => !s.isEmpty
  | .arr xs => !xs.isEmpty
  | .obj f => !f.isEmpty

/-- Whether main reaches generate_persona_image for the given raw text
(src/main.py lines 318-324 and 178-180). -/
def main_renders_image (s : Str) : Bool :=
  match parse_persona_data_from_json s with
  | .ok v => truthy v
  | .error _ => false

/-- Last binding of a key in an object: dictionaries built by json.loads
keep the last occurrence of a duplicated key. -/
def lookupLast : Obj → Str → Option JsonVal
  | [], _ => none
  | (k', v) :: rest, k =>
      match lookupLast rest k with
      | some w => some w
      | none => if k' = k then some v else none

/-- Python dict.get(key, default). -/
def getD (o : Obj) (k : Str) (d : JsonVal) : JsonVal := (lookupLast o k).getD d

def kPersonaName : Str := toL "persona_name"
def kEstimatedAge : Str := toL "estimated_age"
def kOccupation : Str := toL "occupation"
def kStatus : Str := toL "status"
def kLikelyLocation : Str := toL "likely_location"
def kArchetype : Str := toL "archetype"
def kMbtiPersonality : Str := toL "mbti_personality"
def kMotivations : Str := toL "motivations"
def kBehaviorHabits : Str := toL "behavior_habits"
def kFrustrations : Str := toL "frustrations"
def kLikings : Str := toL "likings"
def kGoalsNeeds : Str := toL "goals_needs"
def kItem : Str := toL "item"
def kCitationUrl : Str := toL "citation_url"

/-- The sentinel value substituted for missing scalar fields. -/
def naStr : Str := toL "N/A"

/-- The seven scalar fields read with an N/A default (src/main.py lines 220
and 226-233). -/
def scalarKeys : List Str :=
  [kPersonaName, kEstimatedAge, kOccupation, kStatus, kLikelyLocation,
   kArchetype, kMbtiPersonality]

/-- The five Observation-list fields (src/main.py lines 278-282). -/
def listKeys : List Str :=
  [kMotivations, kBehaviorHabits, kFrustrations, kLikings, kGoalsNeeds]

/-- Effectful map over a list, stopping at the first failure, as the drawing
loop of the source stops at the first element it cannot read. -/
def mapE (f : α → Except Unit β) : List α → Except Unit (List β)
  | [] => .ok []
  | a :: l =>
      match f a, mapE f l with
      | .ok b, .ok bs => .ok (b :: bs)
      | _, _ => .error ()

/-- Normalization of one list element (src/main.py lines 248-249):
item_data.get of item and citation_url; a non-dictionary element makes the
source raise, modelled as a failure. -/
def normObs : JsonVal → Except Unit JsonVal
  | .obj f =>
      .ok (.obj [(kItem, getD f kItem (.str naStr)),
                 (kCitationUrl, getD f kCitationUrl (.str []))])
  | _ => .error ()

/-- Normalization of one list field value: a list has its elements
normalized; a falsy non-list behaves as the empty list (the placeholder
branch of line 243); a truthy non-list makes the drawing loop raise. -/
def normListField : JsonVal → Except Unit JsonVal
  | .arr xs => (mapE normObs xs).map .arr
  | v => if truthy v then .error () else .ok (.arr [])

/-- The record-shaped object holding seven scalar values and five list
values under the fixed schema keys. -/
def mkRecord (s1 s2 s3 s4 s5 s6 s7 m b fr li g : JsonVal) : Obj :=
  [(kPersonaName, s1), (kEstimatedAge, s2), (kOccupation, s3), (kStatus, s4),
   (kLikelyLocation, s5), (kArchetype, s6), (kMbtiPersonality, s7),
   (kMotivations, m), (kBehaviorHabits, b), (kFrustrations, fr),
   (kLikings, li), (kGoalsNeeds, g)]

/-- The normalization the source applies to a parsed object: the scalar
dict.get defaults of lines 220 and 226-233 and the per-section, per-element
defaults of lines 243-249, aggregated into one record-shaped object. -/
def normalize (o : Obj) : Except Unit Obj :=
  match normListField (getD o kMotivations (.arr [])),
        normListField (getD o kBehaviorHabits (.arr [])),
        normListField (getD o kFrustrations (.arr [])),
        normListField (getD o kLikings (.arr [])),
        normListField (getD o kGoalsNeeds (.arr [])) with
  | .ok m, .ok b, .ok fr, .ok li, .ok g =>
      .ok (mkRecord (getD o kPersonaName (.str naStr))
        (getD o kEstimatedAge (.str naStr)) (getD o kOccupation (.str naStr))
        (getD o kStatus (.str naStr)) (getD o kLikelyLocation (.str naStr))
        (getD o kArchetype (.str naStr)) (getD o kMbtiPersonality (.str naStr))
        m b fr li g)
  | _, _, _, _, _ => .error ()

/-- The citation text segment displayed for an Observation (src/main.py line
272): the last slash-delimited segment of the URL, citation.split of slash
indexed at -1.  Splitting never yields an empty list, so the default of
getD is never taken. -/
def lastSegment (url : Str) : Str := ((splitOn '/' url).getLast?).getD []

/-- A well-formed Observation, as the layout engine reads it. -/
structure Obs where
  item : Str
  citation_url : Str

/-- A well-formed PersonaRecord, input of a render pass. -/
structure PersonaRecord where
  persona_name : Str
  estimated_age : Str
  occupation : Str
  status : Str
  likely_location : Str
  archetype : Str
  mbti_personality : Str
  motivations : List Obs
  behavior_habits : List Obs
  frustrations : List Obs
  likings : List Obs
  goals_needs : List Obs

/-- Cursor increments while drawing one Observation (src/main.py lines
266-273): one line height of 20 per wrapped line, then 18 for a citation
line when the citation is truthy. -/
def obsSteps (w : Str → Nat) (mw : Int) (o : Obs) : List Int :=
  List.replicate (wrapLines w mw o.item).length 20
    ++ (if o.citation_url.isEmpty then [] else [18])

/-- Cursor increments of draw_bullet_section (src/main.py lines 240-275):
25 after the title, either the placeholder line of 25 or the per-Observation
steps, then the trailing gap of 20. -/
def sectionSteps (w : Str → Nat) (mw : Int) (items : List Obs) : List Int :=
  25 :: ((if items.isEmpty then [25]
          else (items.map (obsSteps w mw)).flatten) ++ [20])

/-- All cursor increments of a full render pass (src/main.py lines 211-282):
title 60, name 40, info header 30, six info lines of 25, gap 20, then the
five bulleted sections in their fixed order. -/
def renderSteps (w : Str → Nat) (mw : Int) (r : PersonaRecord) : List Int :=
  [60, 40, 30, 25, 25, 25, 25, 25, 25, 20]
    ++ sectionSteps w mw r.frustrations
    ++ sectionSteps w mw r.likings
    ++ sectionSteps w mw r.motivations
    ++ sectionSteps w mw r.behavior_habits
    ++ sectionSteps w mw r.goals_needs

/-- Successive values of y_offset across the render pass, starting at the
top margin of 40. -/
def renderTrace (w : Str → Nat) (mw : Int) (r : PersonaRecord) : List Int :=
  List.scanl (· + ·) 40 (renderSteps w mw r)

/-- A clean word: non-empty and free of whitespace characters.  The words of
an item that is a single-space-separated sequence of printable words are all
clean. -/
def goodW (wd : Str) : Prop := wd ≠ [] ∧ ∀ c ∈ wd, isWS c = false

instance (wd : Str) : Decidable (goodW wd) := by unfold goodW; infer_instance

/-- The words carried by a list of wrapped lines, in order: split each line
at single spaces and drop empty pieces (an empty line carries no word). -/
def wordsOfLines (ls : List Str) : List Str :=
  ((ls.map (splitOn ' ')).flatten).filter (fun p => p ≠ [])

/-- Shape of a list-field value that the drawing loop can consume without
raising: a list of objects, or any falsy value. -/
def listShapeOk : JsonVal → Prop
  | .arr xs => ∀ x ∈ xs, ∃ f, x = .obj f
  | v => truthy v = false

/-- The element list of a list-field value, empty for non-lists. -/
def elemsOf : JsonVal → List JsonVal
  | .arr xs => xs
  | _ => []

/-- Relation between a raw list element and its normalized Observation:
item defaults to N/A, citation_url defaults to the empty string. -/
def obsRel (x y : JsonVal) : Prop :=
  ∃ f, x = .obj f ∧
    y = .obj [(kItem, getD f kItem (.str naStr)),
              (kCitationUrl, getD f kCitationUrl (.str []))]

/-- Raw generated text of end-to-end scenario A. -/
def scenarioARaw : Str :=
  toL " ```json\n\x7b\"persona_name\":\"Alex S.\",\"frustrations\":[\x7b\"item\":\"Dislikes unclear instructions\",\"citation_url\":\"https://reddit.com/r/x/comments/abc\"\x7d]\x7d\n``` "

/-- The payload of scenario A once the fence markers are stripped. -/
def scenarioAClean : Str :=
  toL "\n\x7b\"persona_name\":\"Alex S.\",\"frustrations\":[\x7b\"item\":\"Dislikes unclear instructions\",\"citation_url\":\"https://reddit.com/r/x/comments/abc\"\x7d]\x7d\n"

/-- The citation URL of the one frustration of scenario A. -/
def scenarioAUrl : Str := toL "https://reddit.com/r/x/comments/abc"

/-- The object deserialized from scenario A. -/
def scenarioAObj : Obj :=
  [(kPersonaName, .str (toL "Alex S.")),
   (kFrustrations,
    .arr [.obj [(kItem, .str (toL "Dislikes unclear instructions")),
                (kCitationUrl, .str scenarioAUrl)]])]

/-- The record normalize yields on the empty object: every scalar is N/A,
every list is empty. -/
def normalizeEmptyRec : Obj :=
  [(kPersonaName, .str naStr), (kEstimatedAge, .str naStr),
   (kOccupation, .str naStr), (kStatus, .str naStr),
   (kLikelyLocation, .str naStr), (kArchetype, .str naStr),
   (kMbtiPersonality, .str naStr), (kMotivations, .arr []),
   (kBehaviorHabits, .arr []), (kFrustrations, .arr []),
   (kLikings, .arr []), (kGoalsNeeds, .arr [])]




/-! General lemmas shared by the claim theorems. -/

set_option maxRecDepth 20000

/-- Splitting always yields at least one piece. -/
theorem splitOn_ne_nil (sep : Char) : ∀ s : Str, splitOn sep s ≠ []
  | [] => by simp [splitOn]
  | c :: cs => by
      unfold splitOn
      split
      · simp
      · split <;> simp

/-- The accumulation loop always commits at least one line. -/
theorem wrapAux_ne_nil (w : Str → Nat) (limit : Int) :
    ∀ (rest : List Str) (cur : Str), wrapAux w limit rest cur ≠ []
  | [], _ => by simp [wrapAux]
  | _ :: rest, cur => by
      simp only [wrapAux]
      split
      · exact wrapAux_ne_nil w limit rest _
      · simp

/-- Membership from the head entry. -/
theorem mem_of_head?_eq {l : Str} {c : Char} (h : l.head? = some c) : c ∈ l :=
  List.mem_of_mem_head? (by simp [h])

/-- Membership from the last entry. -/
theorem mem_of_getLast?_eq {l : Str} {c : Char} (h : l.getLast? = some c) :
    c ∈ l := by
  have hr : c ∈ l.reverse := mem_of_head?_eq (by simpa using h)
  simpa using hr

/-- dropWhile is the identity when the first element already fails the
test. -/
theorem dropWhile_eq_self_of (p : Char → Bool) :
    ∀ s : Str, (∀ c, s.head? = some c → p c = false) → s.dropWhile p = s
  | [], _ => rfl
  | c :: cs, h => by simp [List.dropWhile_cons, h c rfl]

/-- strip is the identity on a string whose two end characters are not
whitespace. -/
theorem strip_eq_self (s : Str)
    (h1 : ∀ c, s.head? = some c → isWS c = false)
    (h2 : ∀ c, s.getLast? = some c → isWS c = false) : strip s = s := by
  unfold strip stripL stripR
  rw [dropWhile_eq_self_of _ s h1]
  rw [dropWhile_eq_self_of _ s.reverse (fun c hc => h2 c (by simpa using hc)),
    List.reverse_reverse]

/-- strip on a clean word absorbs one leading space. -/
theorem strip_sep_good (wd : Str) (h : goodW wd) : strip (' ' :: wd) = wd := by
  have hws : List.dropWhile isWS (' ' :: wd) = List.dropWhile isWS wd := by
    simp [List.dropWhile_cons]
    simp [isWS]
  unfold strip stripL
  rw [hws, dropWhile_eq_self_of _ wd
    (fun c hc => h.2 c (mem_of_head?_eq hc))]
  unfold stripR
  rw [dropWhile_eq_self_of _ wd.reverse
      (fun c hc => h.2 c (mem_of_getLast?_eq (by simpa using hc))),
    List.reverse_reverse]

/-- The first entry of a running-sum trace is its starting value. -/
theorem head?_scanl_add (b : Int) (l : List Int) :
    (List.scanl (· + ·) b l).head? = some b := by
  cases l <;> simp [List.scanl]

/-- A running sum of non-negative increments is non-decreasing at every
step. -/
theorem scanl_add_chain_le :
    ∀ (l : List Int) (a : Int), (∀ x ∈ l, 0 ≤ x) →
      List.Chain' (· ≤ ·) (List.scanl (· + ·) a l)
  | [], a, _ => by simp [List.scanl]
  | x :: l, a, h => by
      rw [List.scanl]
      refine List.chain'_cons'.mpr ⟨?_, scanl_add_chain_le l (a + x)
        (fun y hy => h y (List.mem_cons_of_mem _ hy))⟩
      intro b hb
      rw [head?_scanl_add] at hb
      have hx : (0 : Int) ≤ x := h x (List.mem_cons_self _ _)
      have hb' : a + x = b := by simpa using hb
      omega

/-- Every cursor increment of one Observation is non-negative. -/
theorem obsSteps_nonneg (w : Str → Nat) (mw : Int) (o : Obs) :
    ∀ x ∈ obsSteps w mw o, 0 ≤ x := by
  intro x hx
  unfold obsSteps at hx
  rcases List.mem_append.mp hx with h | h
  · rw [List.eq_of_mem_replicate h]; norm_num
  · split at h <;> simp_all

/-- Every cursor increment of one bulleted section is non-negative. -/
theorem sectionSteps_nonneg (w : Str → Nat) (mw : Int) (items : List Obs) :
    ∀ x ∈ sectionSteps w mw items, 0 ≤ x := by
  intro x hx
  unfold sectionSteps at hx
  rcases List.mem_cons.mp hx with h | h
  · omega
  rcases List.mem_append.mp h with h | h
  · split at h
    · simp_all
    · rcases List.mem_flatten.mp h with ⟨l, hl, hxl⟩
      rcases List.mem_map.mp hl with ⟨o, _, rfl⟩
      exact obsSteps_nonneg w mw o x hxl
  · simp_all

/-- Every cursor increment of a full render pass is non-negative. -/
theorem renderSteps_nonneg (w : Str → Nat) (mw : Int) (r : PersonaRecord) :
    ∀ x ∈ renderSteps w mw r, 0 ≤ x := by
  intro x hx
  unfold renderSteps at hx
  rcases List.mem_append.mp hx with h | h
  rcases List.mem_append.mp h with h | h
  rcases List.mem_append.mp h with h | h
  rcases List.mem_append.mp h with h | h
  rcases List.mem_append.mp h with h | h
  · fin_cases h <;> norm_num
  · exact sectionSteps_nonneg w mw _ x h
  · exact sectionSteps_nonneg w mw _ x h
  · exact sectionSteps_nonneg w mw _ x h
  · exact sectionSteps_nonneg w mw _ x h
  · exact sectionSteps_nonneg w mw _ x h

/-- Appending before a non-empty list keeps the last entry. -/
theorem getLast?_append_of_ne_nil (l l' : Str) (h : l' ≠ []) :
    (l ++ l').getLast? = l'.getLast? := by
  rw [List.getLast?_append]
  cases hx : l'.getLast? with
  | none => exact absurd (by simpa using hx) h
  | some x => rfl

/-- Appending after a non-empty list keeps the head entry. -/
theorem head?_append_of_ne_nil (l l' : Str) (h : l ≠ []) :
    (l ++ l').head? = l.head? := by
  obtain ⟨a, t, rfl⟩ := List.exists_cons_of_ne_nil h
  rfl

/-- A clean word contains no space. -/
theorem goodW_no_space {wd : Str} (h : goodW wd) : ' ' ∉ wd := by
  intro hm
  have := h.2 ' ' hm
  simp [isWS] at this

/-- strip is the identity on a candidate line built from a non-empty current
line with a clean head character and a clean word. -/
theorem strip_append_sep_good (cur wd : Str) (hcur : cur ≠ [])
    (hhead : ∀ c, cur.head? = some c → isWS c = false) (hwd : goodW wd) :
    strip (cur ++ ' ' :: wd) = cur ++ ' ' :: wd := by
  apply strip_eq_self
  · intro c hc
    rw [head?_append_of_ne_nil _ _ hcur] at hc
    exact hhead c hc
  · intro c hc
    rw [getLast?_append_of_ne_nil _ _ (by simp)] at hc
    obtain ⟨d, wd', rfl⟩ := List.exists_cons_of_ne_nil hwd.1
    rw [List.getLast?_cons_cons] at hc
    exact hwd.2 c (mem_of_getLast?_eq hc)

/-- The head of a separator-join starts the first piece. -/
theorem head?_joinWith (sep : Char) (w0 : Str) (ws : List Str) (h : w0 ≠ []) :
    (joinWith sep (w0 :: ws)).head? = w0.head? := by
  cases ws
  · rfl
  · exact head?_append_of_ne_nil _ _ h

/-- Joining one more piece at the right. -/
theorem joinWith_append_single (sep : Char) (wd : Str) :
    ∀ ws : List Str, ws ≠ [] →
      joinWith sep (ws ++ [wd]) = joinWith sep ws ++ sep :: wd
  | [w], _ => rfl
  | w :: x :: ws, _ => by
      have ih := joinWith_append_single sep wd (x :: ws) (by simp)
      show w ++ sep :: joinWith sep ((x :: ws) ++ [wd]) =
        (w ++ sep :: joinWith sep (x :: ws)) ++ sep :: wd
      rw [ih]
      simp

/-- Splitting a separator-free string yields that one piece. -/
theorem splitOn_no_sep (sep : Char) : ∀ w : Str, sep ∉ w → splitOn sep w = [w]
  | [], _ => rfl
  | c :: cs, h => by
      have hc : ¬ c = sep := fun e => h (e ▸ List.mem_cons_self _ _)
      have ih := splitOn_no_sep sep cs (fun hm => h (List.mem_cons_of_mem _ hm))
      simp [splitOn, hc, ih]

/-- Splitting past a separator-free piece and one separator. -/
theorem splitOn_append_sep (sep : Char) :
    ∀ w t : Str, sep ∉ w → splitOn sep (w ++ sep :: t) = w :: splitOn sep t
  | [], t, _ => by simp [splitOn]
  | c :: w', t, h => by
      have hc : ¬ c = sep := fun e => h (e ▸ List.mem_cons_self _ _)
      have ih := splitOn_append_sep sep w' t (fun hm => h (List.mem_cons_of_mem _ hm))
      simp [splitOn, hc, ih]

/-- Splitting inverts joining on separator-free pieces. -/
theorem splitOn_joinWith (sep : Char) :
    ∀ ws : List Str, (∀ wd ∈ ws, sep ∉ wd) → ws ≠ [] →
      splitOn sep (joinWith sep ws) = ws
  | [w], h, _ => by
      show splitOn sep w = [w]
      exact splitOn_no_sep sep w (h w (List.mem_cons_self _ _))
  | w :: x :: ws, h, _ => by
      show splitOn sep (w ++ sep :: joinWith sep (x :: ws)) = w :: x :: ws
      rw [splitOn_append_sep sep w _ (h w (List.mem_cons_self _ _)),
        splitOn_joinWith sep (x :: ws)
          (fun a ha => h a (List.mem_cons_of_mem _ ha)) (by simp)]

/-- Joining inverts splitting. -/
theorem joinWith_splitOn (sep : Char) : ∀ s : Str, joinWith sep (splitOn sep s) = s
  | [] => rfl
  | c :: cs => by
      have ih := joinWith_splitOn sep cs
      obtain ⟨w, ws, hws⟩ := List.exists_cons_of_ne_nil (splitOn_ne_nil sep cs)
      by_cases hc : c = sep
      · subst hc
        simp only [splitOn, if_pos rfl, hws]
        show ([] : Str) ++ c :: joinWith c (w :: ws) = c :: cs
        rw [List.nil_append, ← hws, ih]
      · simp only [splitOn, if_neg hc, hws]
        cases ws with
        | nil =>
            have hw : w = cs := by
              have := ih
              rw [hws] at this
              simpa [joinWith] using this
            simp [joinWith, hw]
        | cons x xs =>
            have htail : w ++ sep :: joinWith sep (x :: xs) = cs := by
              have := ih
              rw [hws] at this
              simpa [joinWith] using this
            show (c :: w) ++ sep :: joinWith sep (x :: xs) = c :: cs
            rw [List.cons_append, htail]

/-- The words carried by one committed line made of clean pieces. -/
theorem wordsOf_join (curWs : List Str) (h : ∀ wd ∈ curWs, goodW wd) :
    (splitOn ' ' (joinWith ' ' curWs)).filter (fun p => p ≠ []) = curWs := by
  cases curWs with
  | nil => decide
  | cons w0 ws =>
      rw [splitOn_joinWith ' ' (w0 :: ws)
        (fun wd hwd => goodW_no_space (h wd hwd)) (by simp)]
      rw [List.filter_eq_self.mpr]
      intro a ha
      simpa using (h a ha).1

/-- wordsOfLines distributes over a committed line. -/
theorem wordsOfLines_cons (l : Str) (ls : List Str) :
    wordsOfLines (l :: ls) =
      (splitOn ' ' l).filter (fun p => p ≠ []) ++ wordsOfLines ls := by
  simp [wordsOfLines]

/-- Invariant of the accumulation loop: every committed line is empty, a
single input word, or measures under the limit. -/
theorem wrapAux_bound (w : Str → Nat) (limit : Int) (allW : List Str) :
    ∀ (rest : List Str) (cur : Str), (∀ x ∈ rest, x ∈ allW) →
      (cur = [] ∨ cur ∈ allW ∨ (w cur : Int) < limit) →
      ∀ l ∈ wrapAux w limit rest cur, l = [] ∨ l ∈ allW ∨ (w l : Int) < limit
  | [], cur, _, hc => by
      intro l hl
      simp [wrapAux] at hl
      exact hl ▸ hc
  | wd :: rest, cur, hr, hc => by
      have hr' : ∀ x ∈ rest, x ∈ allW := fun x hx => hr x (List.mem_cons_of_mem _ hx)
      simp only [wrapAux]
      split
      · next hfit =>
          exact wrapAux_bound w limit allW rest _ hr' (Or.inr (Or.inr hfit))
      · next hnofit =>
          intro l hl
          rcases List.mem_cons.mp hl with rfl | hl
          · exact hc
          · exact wrapAux_bound w limit allW rest wd hr'
              (Or.inr (Or.inl (hr wd (List.mem_cons_self _ _)))) l hl

/-- Invariant of the accumulation loop on clean words: the words of the
committed lines are the pending current-line words followed by the words not
yet consumed, in order. -/
theorem wrapAux_words (w : Str → Nat) (limit : Int) :
    ∀ (rest : List Str) (curWs : List Str),
      (∀ wd ∈ rest, goodW wd) → (∀ wd ∈ curWs, goodW wd) →
      wordsOfLines (wrapAux w limit rest (joinWith ' ' curWs)) = curWs ++ rest
  | [], curWs, _, hc => by
      show wordsOfLines [joinWith ' ' curWs] = curWs ++ []
      rw [List.append_nil, wordsOfLines_cons, wordsOf_join curWs hc]
      simp [wordsOfLines]
  | wd :: rest, curWs, hr, hc => by
      have hwd : goodW wd := hr wd (List.mem_cons_self _ _)
      have hrest : ∀ x ∈ rest, goodW x := fun x hx => hr x (List.mem_cons_of_mem _ hx)
      have htest : strip (joinWith ' ' curWs ++ ' ' :: wd) =
          joinWith ' ' (curWs ++ [wd]) := by
        cases curWs with
        | nil =>
            show strip (([] : Str) ++ ' ' :: wd) = joinWith ' ' [wd]
            rw [List.nil_append, strip_sep_good wd hwd]
            rfl
        | cons w0 ws =>
            have hw0 : goodW w0 := hc w0 (List.mem_cons_self _ _)
            rw [joinWith_append_single ' ' wd (w0 :: ws) (by simp)]
            apply strip_append_sep_good
            · intro hnil
              have := head?_joinWith ' ' w0 ws hw0.1
              rw [hnil] at this
              obtain ⟨a, t, rfl⟩ := List.exists_cons_of_ne_nil hw0.1
              simp at this
            · intro c hchead
              rw [head?_joinWith ' ' w0 ws hw0.1] at hchead
              exact hw0.2 c (mem_of_head?_eq hchead)
            · exact hwd
      have hgoodapp : ∀ x ∈ curWs ++ [wd], goodW x := by
        intro x hx
        rcases List.mem_append.mp hx with hx | hx
        · exact hc x hx
        · simp at hx
          exact hx ▸ hwd
      simp only [wrapAux, htest]
      split
      · next hfit =>
          rw [wrapAux_words w limit rest (curWs ++ [wd]) hrest hgoodapp]
          simp
      · next hnofit =>
          have hone : wrapAux w limit rest wd =
              wrapAux w limit rest (joinWith ' ' [wd]) := rfl
          rw [wordsOfLines_cons, wordsOf_join curWs hc, hone,
            wrapAux_words w limit rest [wd] hrest (by simpa using hwd)]
          simp

/-- C1 counterexample: under a ten-pixel-per-character measure and the
positive width bound 30, the single-word item abcdef is committed as a line
measuring 60, above the bound, so not every produced line fits max_width. -/
theorem c1_wrap_counterexample :
    (0 : Int) < 30 ∧
      ∃ l ∈ wrapLines monoW 30 (toL "abcdef"), ¬ ((monoW l : Int) ≤ 30) := by
  decide

/-- C1 amended: every produced line is empty, a single input word (possibly
wider than the bound), or measures strictly under max_width minus the bullet
allowance of 20; and when the item is a single-space-separated sequence of
clean words, the words of the produced lines reconstruct the item exactly,
with no loss, duplication or reordering. -/
theorem c1_wrap_amended (w : Str → Nat) (mw : Int) (item : Str)
    (hgood : ∀ wd ∈ splitOn ' ' item, goodW wd) :
    (∀ l ∈ wrapLines w mw item,
        l = [] ∨ l ∈ splitOn ' ' item ∨ (w l : Int) < mw - 20) ∧
      wordsOfLines (wrapLines w mw item) = splitOn ' ' item ∧
      joinWith ' ' (wordsOfLines (wrapLines w mw item)) = item := by
  have hwords : wordsOfLines (wrapLines w mw item) = splitOn ' ' item := by
    have := wrapAux_words w (mw - 20) (splitOn ' ' item) [] hgood (by simp)
    simpa [wrapLines, joinWith] using this
  refine ⟨?_, hwords, ?_⟩
  · exact wrapAux_bound w (mw - 20) (splitOn ' ' item) (splitOn ' ' item) []
      (fun x hx => hx) (Or.inl rfl)
  · rw [hwords, joinWith_splitOn]

/-- C1 witness for the amended statement, at the ten-pixel measure and the
actual width bound 680 of the source. -/
theorem c1_wrap_amended_witness :
    (∀ wd ∈ splitOn ' ' (toL "hello world"), goodW wd) ∧
      ((∀ l ∈ wrapLines monoW 680 (toL "hello world"),
          l = [] ∨ l ∈ splitOn ' ' (toL "hello world") ∨
            (monoW l : Int) < 680 - 20) ∧
        wordsOfLines (wrapLines monoW 680 (toL "hello world")) =
          splitOn ' ' (toL "hello world") ∧
        joinWith ' ' (wordsOfLines (wrapLines monoW 680 (toL "hello world"))) =
          toL "hello world") :=
  ⟨by decide, c1_wrap_amended monoW 680 (toL "hello world") (by decide)⟩

/-- C10: when the first word of a clean item already measures at or above
max_width minus the bullet allowance (under a measure monotone in
appending), the first committed line is empty and the oversized word opens
the following line, so the bullet glyph is drawn on a line with no text. -/
theorem c10_oversized_first_word (w : Str → Nat) (mw : Int) (item : Str)
    (w1 : Str) (rest : List Str)
    (hsplit : splitOn ' ' item = w1 :: rest)
    (hgood : ∀ wd ∈ splitOn ' ' item, goodW wd)
    (hmono : ∀ a b : Str, w a ≤ w (a ++ b))
    (hbig : mw - 20 ≤ (w w1 : Int)) :
    ∃ tail, wrapLines w mw item = [] :: w1 :: tail ∧
      (bulletLines (wrapLines w mw item)).head? = some (toL "• ") := by
  have hw1 : goodW w1 := hgood w1 (hsplit ▸ List.mem_cons_self _ _)
  have hshape : ∃ tail, wrapLines w mw item = [] :: w1 :: tail := by
    unfold wrapLines
    rw [hsplit]
    have htest : strip (([] : Str) ++ ' ' :: w1) = w1 := by
      rw [List.nil_append]
      exact strip_sep_good w1 hw1
    simp only [wrapAux, htest]
    rw [if_neg (by omega)]
    cases rest with
    | nil => exact ⟨[], rfl⟩
    | cons w2 rest' =>
        have hw2 : goodW w2 :=
          hgood w2 (hsplit ▸ List.mem_cons_of_mem _ (List.mem_cons_self _ _))
        have htest2 : strip (w1 ++ ' ' :: w2) = w1 ++ ' ' :: w2 :=
          strip_append_sep_good w1 w2 hw1.1
            (fun c hc => hw1.2 c (mem_of_head?_eq hc)) hw2
        have hgrow : (w w1 : Int) ≤ (w (w1 ++ ' ' :: w2) : Int) := by
          exact_mod_cast hmono w1 (' ' :: w2)
        simp only [wrapAux, htest2]
        rw [if_neg (by omega)]
        exact ⟨wrapAux w (mw - 20) rest' w2, rfl⟩
  obtain ⟨tail, htail⟩ := hshape
  refine ⟨tail, htail, ?_⟩
  rw [htail]
  simp [bulletLines]

/-- C10 witness: item abcdef gh under the ten-pixel measure and width bound
30, where abcdef alone measures 60. -/
theorem c10_oversized_first_word_witness :
    (splitOn ' ' (toL "abcdef gh") = toL "abcdef" :: [toL "gh"]) ∧
      (∀ wd ∈ splitOn ' ' (toL "abcdef gh"), goodW wd) ∧
      ((30 : Int) - 20 ≤ (monoW (toL "abcdef") : Int)) ∧
      (∃ tail, wrapLines monoW 30 (toL "abcdef gh") = [] :: toL "abcdef" :: tail ∧
        (bulletLines (wrapLines monoW 30 (toL "abcdef gh"))).head? =
          some (toL "• ")) :=
  ⟨by decide, by decide, by decide,
    c10_oversized_first_word monoW 30 (toL "abcdef gh") (toL "abcdef")
      [toL "gh"] (by decide) (by decide)
      (fun a b => by simp [monoW]) (by decide)⟩

/-- find yields minus one or an index. -/
theorem find_cases (c : Char) : ∀ s : Str, 0 ≤ find c s ∨ find c s = -1
  | [] => by simp [find]
  | a :: s => by
      by_cases ha : a = c
      · left
        simp [find, ha]
      · rcases find_cases c s with h | h
        · left
          have hne : find c s ≠ -1 := by omega
          simp [find, ha, hne]
          omega
        · right
          simp [find, ha, h]

/-- rfind yields minus one or an index. -/
theorem rfind_cases (c : Char) : ∀ s : Str, 0 ≤ rfind c s ∨ rfind c s = -1
  | [] => by simp [rfind]
  | a :: s => by
      rcases rfind_cases c s with h | h
      · left
        have hne : rfind c s ≠ -1 := by omega
        simp [rfind, hne]
        omega
      · by_cases ha : a = c
        · left
          simp [rfind, h, ha]
        · right
          simp [rfind, h, ha]

/-- find misses exactly when the character is absent. -/
theorem find_eq_neg_iff (c : Char) : ∀ s : Str, find c s = -1 ↔ c ∉ s
  | [] => by simp [find]
  | a :: s => by
      have ih := find_eq_neg_iff c s
      by_cases ha : a = c
      · subst ha
        simp [find]
      · by_cases hfs : find c s = -1
        · have hns : c ∉ s := ih.mp hfs
          simp [find, ha, hfs, hns]
          exact fun e => ha e.symm
        · have hmem : c ∈ s := by
            by_contra hx
            exact hfs (ih.mpr hx)
          rcases find_cases c s with hp | hp
          · simp [find, ha, hfs, hmem]
            omega
          · exact absurd hp hfs

/-- The first-occurrence decomposition computed by find. -/
theorem find_spec (c : Char) : ∀ s : Str, c ∈ s →
    ∃ pre rest, s = pre ++ c :: rest ∧ c ∉ pre ∧ find c s = pre.length
  | a :: s, hmem => by
      by_cases ha : a = c
      · subst ha
        exact ⟨[], s, rfl, by simp, by simp [find]⟩
      · have hcs : c ∈ s := by
          rcases List.mem_cons.mp hmem with h | h
          · exact absurd h.symm ha
          · exact h
        obtain ⟨pre, rest, hs, hpre, hf⟩ := find_spec c s hcs
        refine ⟨a :: pre, rest, by simp [hs], ?_, ?_⟩
        · intro hx
          rcases List.mem_cons.mp hx with h | h
          · exact ha h.symm
          · exact hpre h
        · have hne : find c s ≠ -1 := by
            rw [hf]
            omega
          simp [find, ha, hne, hf]

/-- rfind misses exactly when the character is absent. -/
theorem rfind_eq_neg_iff (c : Char) : ∀ s : Str, rfind c s = -1 ↔ c ∉ s
  | [] => by simp [rfind]
  | a :: s => by
      have ih := rfind_eq_neg_iff c s
      by_cases hr : rfind c s = -1
      · have hns : c ∉ s := ih.mp hr
        by_cases ha : a = c
        · simp [rfind, hr, ha]
        · simp [rfind, hr, ha, hns]
          exact fun e => ha e.symm
      · have hmem : c ∈ s := by
          by_contra hx
          exact hr (ih.mpr hx)
        rcases rfind_cases c s with hp | hp
        · simp [rfind, hr, hmem]
          omega
        · exact absurd hp hr

/-- The last-occurrence decomposition computed by rfind. -/
theorem rfind_spec (c : Char) : ∀ s : Str, c ∈ s →
    ∃ init post, s = init ++ c :: post ∧ c ∉ post ∧ rfind c s = init.length
  | a :: s, hmem => by
      by_cases hcs : c ∈ s
      · obtain ⟨init, post, hs, hpost, hr⟩ := rfind_spec c s hcs
        have hne : rfind c s ≠ -1 := by
          rw [hr]
          omega
        refine ⟨a :: init, post, by simp [hs], hpost, ?_⟩
        simp [rfind, hne, hr]
      · have ha : a = c := by
          rcases List.mem_cons.mp hmem with h | h
          · exact h.symm
          · exact absurd h hcs
        have hr : rfind c s = -1 := (rfind_eq_neg_iff c s).mpr hcs
        exact ⟨[], s, by simp [ha], hcs, by simp [rfind, hr, ha]⟩

/-! Claim theorems. -/

/-- C3: with both delimiters present in order, isolation returns the
substring from the first left brace to the last right brace inclusive
(characterized by the decomposition around it); with either delimiter
absent it returns the input unchanged; and on the quoted noise example it
returns exactly the embedded object text. -/
theorem c3_isolate_payload (s t : Str)
    (h1 : '\x7b' ∈ s) (h2 : '\x7d' ∈ s)
    (h3 : find '\x7b' s ≤ rfind '\x7d' s)
    (ht : '\x7b' ∉ t ∨ '\x7d' ∉ t) :
    (∃ pre post, s = pre ++ isolate_payload s ++ post ∧
        '\x7b' ∉ pre ∧ '\x7d' ∉ post ∧
        (isolate_payload s).head? = some '\x7b' ∧
        (isolate_payload s).getLast? = some '\x7d') ∧
      isolate_payload t = t ∧
      isolate_payload (toL "noise \x7b\"a\":1\x7d more noise") = toL "\x7b\"a\":1\x7d" := by
  refine ⟨?_, ?_, by decide⟩
  · obtain ⟨pre, rest, hs1, hpre, hfind⟩ := find_spec '\x7b' s h1
    obtain ⟨init, post, hs2, hpost, hrfind⟩ := rfind_spec '\x7d' s h2
    have hij : pre.length ≤ init.length := by
      rw [hfind, hrfind] at h3
      exact_mod_cast h3
    have hdropi : s.drop pre.length = '\x7b' :: rest := by
      rw [hs1]
      exact List.drop_left _ _
    have hdropj : s.drop init.length = '\x7d' :: post := by
      rw [hs2]
      exact List.drop_left _ _
    have htakei : s.take pre.length = pre := by
      rw [hs1]
      exact List.take_left _ _
    have htakej : s.take init.length = init := by
      rw [hs2]
      exact List.take_left _ _
    have hlt : pre.length < init.length := by
      rcases Nat.lt_or_ge pre.length init.length with h | h
      · exact h
      · exfalso
        have he : pre.length = init.length := Nat.le_antisymm hij h
        rw [he] at hdropi
        rw [hdropi] at hdropj
        simp at hdropj
    have hiso : isolate_payload s = init.drop pre.length ++ ['\x7d'] := by
      unfold isolate_payload
      rw [hfind, hrfind, if_pos ⟨by omega, by omega⟩]
      have e1 : ((pre.length : Int)).toNat = pre.length := by omega
      have e2 : ((init.length : Int) + 1).toNat = init.length + 1 := by omega
      rw [e1, e2, hs2]
      rw [List.take_append]
      have e3 : ('\x7d' :: post).take 1 = ['\x7d'] := by simp
      rw [e3, List.drop_append_eq_append_drop,
        Nat.sub_eq_zero_of_le hij, List.drop_zero]
    have hmid : init.drop pre.length = '\x7b' :: rest.take (init.length - pre.length - 1) := by
      have h' := List.drop_take init.length pre.length s
      rw [htakej] at h'
      rw [h', hdropi, List.take_cons (by omega)]
    refine ⟨pre, post, ?_, hpre, hpost, ?_, ?_⟩
    · rw [hiso]
      have hinit : init = pre ++ init.drop pre.length := by
        conv_lhs => rw [← List.take_append_drop pre.length init]
        rw [← htakej, List.take_take, Nat.min_eq_left hij, htakei]
      calc s = init ++ '\x7d' :: post := hs2
        _ = (pre ++ init.drop pre.length) ++ '\x7d' :: post := by rw [← hinit]
        _ = pre ++ (init.drop pre.length ++ ['\x7d']) ++ post := by simp
    · rw [hiso, hmid]
      rfl
    · rw [hiso]
      exact getLast?_append_of_ne_nil _ _ (by simp)
  · unfold isolate_payload
    rw [if_neg]
    intro hc
    rcases ht with ht | ht
    · exact hc.1 ((find_eq_neg_iff _ _).mpr ht)
    · exact hc.2 ((rfind_eq_neg_iff _ _).mpr ht)

/-- C3 witness: the noise example for the ordered case, a braceless string
for the unchanged case. -/
theorem c3_isolate_payload_witness :
    ('\x7b' ∈ toL "noise \x7b\"a\":1\x7d more noise" ∧
      '\x7d' ∈ toL "noise \x7b\"a\":1\x7d more noise" ∧
      find '\x7b' (toL "noise \x7b\"a\":1\x7d more noise") ≤
        rfind '\x7d' (toL "noise \x7b\"a\":1\x7d more noise") ∧
      '\x7b' ∉ toL "plain text") ∧
      isolate_payload (toL "plain text") = toL "plain text" ∧
      isolate_payload (toL "noise \x7b\"a\":1\x7d more noise") = toL "\x7b\"a\":1\x7d" :=
  ⟨by decide,
    (c3_isolate_payload (toL "noise \x7b\"a\":1\x7d more noise") (toL "plain text")
      (by decide) (by decide) (by decide) (Or.inl (by decide))).2⟩

/-- C9: when both delimiters occur but the last right brace comes before the
first left brace, the isolated payload is the empty string, deserialization
fails on it, and the extractor returns the typed failure with an empty
excerpt instead of a record. -/
theorem c9_reversed_delimiters (s : Str)
    (h1 : '\x7b' ∈ s) (h2 : '\x7d' ∈ s)
    (h3 : rfind '\x7d' s < find '\x7b' s) :
    isolate_payload s = [] ∧ loads (isolate_payload s) = none ∧
      parse_persona_data_from_json s = .error [] := by
  obtain ⟨pre, rest, hs1, hpre, hfind⟩ := find_spec '\x7b' s h1
  obtain ⟨init, post, hs2, hpost, hrfind⟩ := rfind_spec '\x7d' s h2
  have hji : init.length < pre.length := by
    rw [hfind, hrfind] at h3
    exact_mod_cast h3
  have hiso : isolate_payload s = [] := by
    unfold isolate_payload
    rw [hfind, hrfind, if_pos ⟨by omega, by omega⟩]
    have e1 : ((pre.length : Int)).toNat = pre.length := by omega
    have e2 : ((init.length : Int) + 1).toNat = init.length + 1 := by omega
    rw [e1, e2]
    apply List.drop_eq_nil_of_le
    calc (s.take (init.length + 1)).length ≤ init.length + 1 :=
          List.length_take_le _ _
      _ ≤ pre.length := by omega
  refine ⟨hiso, ?_, ?_⟩
  · rw [hiso]
    rfl
  · unfold parse_persona_data_from_json
    rw [hiso]
    rfl

/-- C9 witness: a string whose only right brace comes before its only left
brace. -/
theorem c9_reversed_delimiters_witness :
    ('\x7b' ∈ toL "\x7d noise \x7b" ∧ '\x7d' ∈ toL "\x7d noise \x7b" ∧
      rfind '\x7d' (toL "\x7d noise \x7b") < find '\x7b' (toL "\x7d noise \x7b")) ∧
      (isolate_payload (toL "\x7d noise \x7b") = [] ∧
        loads (isolate_payload (toL "\x7d noise \x7b")) = none ∧
        parse_persona_data_from_json (toL "\x7d noise \x7b") = .error []) :=
  ⟨by decide,
    c9_reversed_delimiters (toL "\x7d noise \x7b") (by decide) (by decide) (by decide)⟩

/-- C6: across a full render pass over any well-formed PersonaRecord, under
any font measure and any width bound, the vertical cursor is non-decreasing
after every drawing step. -/
theorem c6_cursor_monotone (w : Str → Nat) (mw : Int) (r : PersonaRecord) :
    List.Chain' (· ≤ ·) (renderTrace w mw r) :=
  scanl_add_chain_le _ 40 (renderSteps_nonneg w mw r)

/-- C7: the wrap routine never returns zero lines, and, whenever the empty
candidate line fits the width bound (as it does for the fixed bound 680 of
the source and any real font, where the empty string measures 0), an empty
item yields exactly one line, which is empty. -/
theorem c7_wrap_line_floor (w : Str → Nat) (mw : Int) (item : Str)
    (h : (w [] : Int) < mw - 20) :
    wrapLines w mw item ≠ [] ∧ wrapLines w mw [] = [[]] := by
  constructor
  · exact wrapAux_ne_nil w (mw - 20) _ _
  · show wrapAux w (mw - 20) (splitOn ' ' []) [] = [[]]
    have hstrip : strip (([] : Str) ++ ' ' :: ([] : Str)) = [] := rfl
    simp only [splitOn, wrapAux, hstrip]
    rw [if_pos h]

/-- C7 witness: instantiated at the ten-pixel-per-character measure and the
actual width bound 680 of the source. -/
theorem c7_wrap_line_floor_witness :
    ((monoW [] : Int) < 680 - 20) ∧
      (wrapLines monoW 680 (toL "x") ≠ [] ∧ wrapLines monoW 680 [] = [[]]) :=
  ⟨by decide, c7_wrap_line_floor monoW 680 (toL "x") (by decide)⟩

/-- C4: whenever the isolated payload fails to deserialize, the parser
returns the typed failure carrying the first 500 characters of the offending
text, no record, and main never reaches image generation. -/
theorem c4_malformed_payload (s : Str)
    (h : loads (isolate_payload s) = none) :
    parse_persona_data_from_json s = .error ((isolate_payload s).take 500) ∧
      ((isolate_payload s).take 500).length ≤ 500 ∧
      main_renders_image s = false := by
  have hp : parse_persona_data_from_json s = .error ((isolate_payload s).take 500) := by
    unfold parse_persona_data_from_json
    rw [h]
  refine ⟨hp, ?_, ?_⟩
  · exact List.length_take_le 500 _
  · unfold main_renders_image
    rw [hp]

/-- C4 witness: end-to-end scenario B, a refusal sentence with no braces. -/
theorem c4_malformed_payload_witness :
    loads (isolate_payload (toL "Sorry, I cannot help with that.")) = none ∧
      (parse_persona_data_from_json (toL "Sorry, I cannot help with that.") =
          .error ((isolate_payload (toL "Sorry, I cannot help with that.")).take 500) ∧
        ((isolate_payload (toL "Sorry, I cannot help with that.")).take 500).length ≤ 500 ∧
        main_renders_image (toL "Sorry, I cannot help with that.") = false) :=
  ⟨rfl, c4_malformed_payload _ rfl⟩

/-- C5: end-to-end scenario A.  The fence markers are stripped, the payload
parses to the expected object, estimated_age defaults to N/A, frustrations
holds exactly one Observation, and its displayed citation segment is abc. -/
theorem c5_scenario_a :
    clean_model_output scenarioARaw = scenarioAClean ∧
      parse_persona_data_from_json scenarioAClean = .ok (.obj scenarioAObj) ∧
      getD scenarioAObj kEstimatedAge (.str naStr) = .str naStr ∧
      getD scenarioAObj kFrustrations (.arr []) =
        .arr [.obj [(kItem, .str (toL "Dislikes unclear instructions")),
                    (kCitationUrl, .str scenarioAUrl)]] ∧
      lastSegment scenarioAUrl = toL "abc" :=
  ⟨rfl, rfl, rfl, rfl, rfl⟩

/-! Lemmas and theorems for normalization (claims C2 and C8). -/

/-- Looking up any of the twelve schema keys in a built record. -/
theorem lookupLast_mkRecord_1 (s1 s2 s3 s4 s5 s6 s7 m b fr li g : JsonVal) :
    lookupLast (mkRecord s1 s2 s3 s4 s5 s6 s7 m b fr li g) kPersonaName = some s1 := rfl

theorem lookupLast_mkRecord_2 (s1 s2 s3 s4 s5 s6 s7 m b fr li g : JsonVal) :
    lookupLast (mkRecord s1 s2 s3 s4 s5 s6 s7 m b fr li g) kEstimatedAge = some s2 := rfl

theorem lookupLast_mkRecord_3 (s1 s2 s3 s4 s5 s6 s7 m b fr li g : JsonVal) :
    lookupLast (mkRecord s1 s2 s3 s4 s5 s6 s7 m b fr li g) kOccupation = some s3 := rfl

theorem lookupLast_mkRecord_4 (s1 s2 s3 s4 s5 s6 s7 m b fr li g : JsonVal) :
    lookupLast (mkRecord s1 s2 s3 s4 s5 s6 s7 m b fr li g) kStatus = some s4 := rfl

theorem lookupLast_mkRecord_5 (s1 s2 s3 s4 s5 s6 s7 m b fr li g : JsonVal) :
    lookupLast (mkRecord s1 s2 s3 s4 s5 s6 s7 m b fr li g) kLikelyLocation = some s5 := rfl

theorem lookupLast_mkRecord_6 (s1 s2 s3 s4 s5 s6 s7 m b fr li g : JsonVal) :
    lookupLast (mkRecord s1 s2 s3 s4 s5 s6 s7 m b fr li g) kArchetype = some s6 := rfl

theorem lookupLast_mkRecord_7 (s1 s2 s3 s4 s5 s6 s7 m b fr li g : JsonVal) :
    lookupLast (mkRecord s1 s2 s3 s4 s5 s6 s7 m b fr li g) kMbtiPersonality = some s7 := rfl

theorem lookupLast_mkRecord_8 (s1 s2 s3 s4 s5 s6 s7 m b fr li g : JsonVal) :
    lookupLast (mkRecord s1 s2 s3 s4 s5 s6 s7 m b fr li g) kMotivations = some m := rfl

theorem lookupLast_mkRecord_9 (s1 s2 s3 s4 s5 s6 s7 m b fr li g : JsonVal) :
    lookupLast (mkRecord s1 s2 s3 s4 s5 s6 s7 m b fr li g) kBehaviorHabits = some b := rfl

theorem lookupLast_mkRecord_10 (s1 s2 s3 s4 s5 s6 s7 m b fr li g : JsonVal) :
    lookupLast (mkRecord s1 s2 s3 s4 s5 s6 s7 m b fr li g) kFrustrations = some fr := rfl

theorem lookupLast_mkRecord_11 (s1 s2 s3 s4 s5 s6 s7 m b fr li g : JsonVal) :
    lookupLast (mkRecord s1 s2 s3 s4 s5 s6 s7 m b fr li g) kLikings = some li := rfl

theorem lookupLast_mkRecord_12 (s1 s2 s3 s4 s5 s6 s7 m b fr li g : JsonVal) :
    lookupLast (mkRecord s1 s2 s3 s4 s5 s6 s7 m b fr li g) kGoalsNeeds = some g := rfl

/-- Element normalization succeeds on a list of objects and relates each
element to its normalized Observation. -/
theorem mapE_normObs_ok : ∀ l : List JsonVal, (∀ x ∈ l, ∃ f, x = .obj f) →
    ∃ ys, mapE normObs l = .ok ys ∧ List.Forall₂ obsRel l ys
  | [], _ => ⟨[], rfl, List.Forall₂.nil⟩
  | x :: l, h => by
      obtain ⟨f, rfl⟩ := h x (List.mem_cons_self _ _)
      obtain ⟨ys, hys, hrel⟩ :=
        mapE_normObs_ok l (fun a ha => h a (List.mem_cons_of_mem _ ha))
      refine ⟨JsonVal.obj [(kItem, getD f kItem (.str naStr)),
        (kCitationUrl, getD f kCitationUrl (.str []))] :: ys, ?_, ?_⟩
      · simp only [mapE, normObs, hys]
      · exact List.Forall₂.cons ⟨f, rfl, rfl⟩ hrel

/-- List-field normalization succeeds exactly on well-shaped values and
yields the element-wise normalized list. -/
theorem normListField_ok (v : JsonVal) (hv : listShapeOk v) :
    ∃ xs, normListField v = .ok (.arr xs) ∧
      List.Forall₂ obsRel (elemsOf v) xs := by
  cases v with
  | arr l =>
      obtain ⟨ys, hys, hrel⟩ := mapE_normObs_ok l hv
      refine ⟨ys, ?_, hrel⟩
      show (mapE normObs l).map JsonVal.arr = .ok (.arr ys)
      rw [hys]
      rfl
  | null =>
      have hv' : truthy .null = false := hv
      exact ⟨[], by simp [normListField, hv'], List.Forall₂.nil⟩
  | bool x =>
      have hv' : truthy (.bool x) = false := hv
      exact ⟨[], by simp [normListField, hv'], List.Forall₂.nil⟩
  | num n =>
      have hv' : truthy (.num n) = false := hv
      exact ⟨[], by simp [normListField, hv'], List.Forall₂.nil⟩
  | str s =>
      have hv' : truthy (.str s) = false := hv
      exact ⟨[], by simp [normListField, hv'], List.Forall₂.nil⟩
  | obj f =>
      have hv' : truthy (.obj f) = false := hv
      exact ⟨[], by simp [normListField, hv'], List.Forall₂.nil⟩

/-- C2 counterexample: on the object-shaped input binding frustrations to
the non-list string oops, the aggregated normalization of the source raises
instead of substituting an empty list, so it is not total. -/
theorem c2_normalize_counterexample :
    normalize [(kFrustrations, JsonVal.str (toL "oops"))] = .error () := rfl

/-- C2 amended: on any object-shaped input whose five list keys, when
present, hold either a falsy value or a list of objects, normalization
succeeds; the seven scalar fields are then defined and equal the input value
verbatim when the key is present (hence possibly empty or non-string) and
the sentinel N/A when absent; the five list fields are defined lists whose
elements are Observations with item defaulting to N/A and citation_url
defaulting to the empty string. -/
theorem c2_normalize_amended (o : Obj)
    (h : ∀ k ∈ listKeys, listShapeOk (getD o k (.arr []))) :
    ∃ r, normalize o = .ok r ∧
      (∀ k ∈ scalarKeys, lookupLast r k = some (getD o k (.str naStr))) ∧
      (∀ k ∈ listKeys, ∃ xs, lookupLast r k = some (.arr xs) ∧
        List.Forall₂ obsRel (elemsOf (getD o k (.arr []))) xs) := by
  obtain ⟨xm, hm, hm2⟩ := normListField_ok _ (h kMotivations (by simp [listKeys]))
  obtain ⟨xb, hb, hb2⟩ := normListField_ok _ (h kBehaviorHabits (by simp [listKeys]))
  obtain ⟨xf, hf, hf2⟩ := normListField_ok _ (h kFrustrations (by simp [listKeys]))
  obtain ⟨xl, hl, hl2⟩ := normListField_ok _ (h kLikings (by simp [listKeys]))
  obtain ⟨xg, hg, hg2⟩ := normListField_ok _ (h kGoalsNeeds (by simp [listKeys]))
  refine ⟨mkRecord (getD o kPersonaName (.str naStr))
      (getD o kEstimatedAge (.str naStr)) (getD o kOccupation (.str naStr))
      (getD o kStatus (.str naStr)) (getD o kLikelyLocation (.str naStr))
      (getD o kArchetype (.str naStr)) (getD o kMbtiPersonality (.str naStr))
      (.arr xm) (.arr xb) (.arr xf) (.arr xl) (.arr xg), ?_, ?_, ?_⟩
  · unfold normalize
    rw [hm, hb, hf, hl, hg]
  · intro k hk
    simp only [scalarKeys, List.mem_cons, List.not_mem_nil, or_false] at hk
    rcases hk with rfl | rfl | rfl | rfl | rfl | rfl | rfl
    · exact lookupLast_mkRecord_1 ..
    · exact lookupLast_mkRecord_2 ..
    · exact lookupLast_mkRecord_3 ..
    · exact lookupLast_mkRecord_4 ..
    · exact lookupLast_mkRecord_5 ..
    · exact lookupLast_mkRecord_6 ..
    · exact lookupLast_mkRecord_7 ..
  · intro k hk
    simp only [listKeys, List.mem_cons, List.not_mem_nil, or_false] at hk
    rcases hk with rfl | rfl | rfl | rfl | rfl
    · exact ⟨xm, lookupLast_mkRecord_8 .., hm2⟩
    · exact ⟨xb, lookupLast_mkRecord_9 .., hb2⟩
    · exact ⟨xf, lookupLast_mkRecord_10 .., hf2⟩
    · exact ⟨xl, lookupLast_mkRecord_11 .., hl2⟩
    · exact ⟨xg, lookupLast_mkRecord_12 .., hg2⟩

/-- C2 witness for the amended statement: the empty object. -/
theorem c2_normalize_amended_witness :
    (∀ k ∈ listKeys, listShapeOk (getD ([] : Obj) k (.arr []))) ∧
      (∃ r, normalize ([] : Obj) = .ok r ∧
        (∀ k ∈ scalarKeys, lookupLast r k = some (getD ([] : Obj) k (.str naStr))) ∧
        (∀ k ∈ listKeys, ∃ xs, lookupLast r k = some (.arr xs) ∧
          List.Forall₂ obsRel (elemsOf (getD ([] : Obj) k (.arr []))) xs)) := by
  have h : ∀ k ∈ listKeys, listShapeOk (getD ([] : Obj) k (.arr [])) := by
    intro k _
    show ∀ x ∈ ([] : List JsonVal), ∃ f, x = JsonVal.obj f
    intro x hx
    simp at hx
  exact ⟨h, c2_normalize_amended [] h⟩

/-- Normalizing an already-normalized Observation changes nothing. -/
theorem normObs_idem (x y : JsonVal) (h : normObs x = .ok y) :
    normObs y = .ok y := by
  cases x with
  | obj f =>
      simp only [normObs, Except.ok.injEq] at h
      subst h
      rfl
  | null => simp [normObs] at h
  | bool b => simp [normObs] at h
  | num n => simp [normObs] at h
  | str s => simp [normObs] at h
  | arr l => simp [normObs] at h

/-- Re-running element normalization on its own output changes nothing. -/
theorem mapE_normObs_idem : ∀ l ys : List JsonVal,
    mapE normObs l = .ok ys → mapE normObs ys = .ok ys
  | [], ys, h => by
      simp only [mapE, Except.ok.injEq] at h
      subst h
      rfl
  | x :: l, ys, h => by
      cases hx : normObs x with
      | error e => simp [mapE, hx] at h
      | ok y =>
          cases hl : mapE normObs l with
          | error e => simp [mapE, hx, hl] at h
          | ok zs =>
              simp only [mapE, hx, hl, Except.ok.injEq] at h
              subst h
              simp only [mapE, normObs_idem x y hx, mapE_normObs_idem l zs hl]

/-- Re-running list-field normalization on its own output changes
nothing. -/
theorem normListField_idem (v u : JsonVal) (h : normListField v = .ok u) :
    normListField u = .ok u := by
  cases v with
  | arr l =>
      cases hm : mapE normObs l with
      | error e => simp [normListField, hm, Except.map] at h
      | ok ys =>
          have hu : u = .arr ys := by
            simp only [normListField, hm, Except.map, Except.ok.injEq] at h
            exact h.symm
          subst hu
          show (mapE normObs ys).map JsonVal.arr = .ok (.arr ys)
          rw [mapE_normObs_idem l ys hm]
          rfl
  | null =>
      simp only [normListField] at h
      split at h
      · simp at h
      · injection h with h'
        subst h'
        rfl
  | bool x =>
      simp only [normListField] at h
      split at h
      · simp at h
      · injection h with h'
        subst h'
        rfl
  | num n =>
      simp only [normListField] at h
      split at h
      · simp at h
      · injection h with h'
        subst h'
        rfl
  | str s =>
      simp only [normListField] at h
      split at h
      · simp at h
      · injection h with h'
        subst h'
        rfl
  | obj f =>
      simp only [normListField] at h
      split at h
      · simp at h
      · injection h with h'
        subst h'
        rfl

/-- C8: normalization is idempotent: whatever record one application
produces, a second application returns it unchanged, so normalize is a fixed
point on already-normalized records. -/
theorem c8_normalize_idempotent (o r : Obj) (h : normalize o = .ok r) :
    normalize r = .ok r := by
  unfold normalize at h
  split at h
  next m b fr li g hm hb hf hl hg =>
    injection h with h'
    subst h'
    unfold normalize
    rw [show getD (mkRecord (getD o kPersonaName (.str naStr))
        (getD o kEstimatedAge (.str naStr)) (getD o kOccupation (.str naStr))
        (getD o kStatus (.str naStr)) (getD o kLikelyLocation (.str naStr))
        (getD o kArchetype (.str naStr)) (getD o kMbtiPersonality (.str naStr))
        m b fr li g) kMotivations (.arr []) = m from rfl]
    rw [show getD (mkRecord (getD o kPersonaName (.str naStr))
        (getD o kEstimatedAge (.str naStr)) (getD o kOccupation (.str naStr))
        (getD o kStatus (.str naStr)) (getD o kLikelyLocation (.str naStr))
        (getD o kArchetype (.str naStr)) (getD o kMbtiPersonality (.str naStr))
        m b fr li g) kBehaviorHabits (.arr []) = b from rfl]
    rw [show getD (mkRecord (getD o kPersonaName (.str naStr))
        (getD o kEstimatedAge (.str naStr)) (getD o kOccupation (.str naStr))
        (getD o kStatus (.str naStr)) (getD o kLikelyLocation (.str naStr))
        (getD o kArchetype (.str naStr)) (getD o kMbtiPersonality (.str naStr))
        m b fr li g) kFrustrations (.arr []) = fr from rfl]
    rw [show getD (mkRecord (getD o kPersonaName (.str naStr))
        (getD o kEstimatedAge (.str naStr)) (getD o kOccupation (.str naStr))
        (getD o kStatus (.str naStr)) (getD o kLikelyLocation (.str naStr))
        (getD o kArchetype (.str naStr)) (getD o kMbtiPersonality (.str naStr))
        m b fr li g) kLikings (.arr []) = li from rfl]
    rw [show getD (mkRecord (getD o kPersonaName (.str naStr))
        (getD o kEstimatedAge (.str naStr)) (getD o kOccupation (.str naStr))
        (getD o kStatus (.str naStr)) (getD o kLikelyLocation (.str naStr))
        (getD o kArchetype (.str naStr)) (getD o kMbtiPersonality (.str naStr))
        m b fr li g) kGoalsNeeds (.arr []) = g from rfl]
    rw [normListField_idem _ _ hm, normListField_idem _ _ hb,
      normListField_idem _ _ hf, normListField_idem _ _ hl,
      normListField_idem _ _ hg]
    rfl
  all_goals simp at h

/-- C8 witness: the empty object normalizes to the all-default record, which
is a fixed point. -/
theorem c8_normalize_idempotent_witness :
    normalize ([] : Obj) = .ok normalizeEmptyRec ∧
      normalize normalizeEmptyRec = .ok normalizeEmptyRec :=
  ⟨rfl, c8_normalize_idempotent [] normalizeEmptyRec rfl⟩

end RP
